import Mathlib

/-!
Shallow embedding of the Community-Health ETL engine
(`county_health_etl.py`, `improved_data_structure.py`,
`run_simple_etl.py`, `create_sqlite_db_v2.py`) and proofs about it.

Metric values are modelled as rationals; a missing cell (pandas `NaN`)
is `Option.none`.
-/

namespace CommunityHealth

/-! ### Percentile ranker

`Series.rank(pct=True)` (pandas, method `average`) assigns to a value `x`
the average of the 1-indexed positions of the occurrences of `x` in the
ascending sort of the series, divided by the number of non-null entries.
For a multiset `xs` this average rank is
`(number of entries < x) + ((number of entries = x) + 1) / 2`.

`pctRank` embeds `values_df['value'].rank(pct=True) * 100`
(`improved_data_structure.py` line 244, `county_health_etl.py` line 314);
`pctRankInv` embeds `(1 - values_df['value'].rank(pct=True)) * 100`
(`improved_data_structure.py` line 246). -/

/-- Number of entries of `xs` strictly below `x`. -/
def countLt (xs : List ℚ) (x : ℚ) : ℕ :=
  xs.countP (fun y => decide (y < x))

/-- Fractional (average-method) rank of `x` within `xs`, 1-indexed. -/
def fracRank (xs : List ℚ) (x : ℚ) : ℚ :=
  (countLt xs x : ℚ) + ((xs.count x : ℚ) + 1) / 2

/-- Percentile rank of `x` within `xs`, scaled to 0–100
(`rank(pct=True) * 100`). -/
def pctRank (xs : List ℚ) (x : ℚ) : ℚ :=
  fracRank xs x / (xs.length : ℚ) * 100

/-- Inverted percentile for lower-is-better metrics
(`(1 - rank(pct=True)) * 100`). -/
def pctRankInv (xs : List ℚ) (x : ℚ) : ℚ :=
  (1 - fracRank xs x / (xs.length : ℚ)) * 100

/-- The ascending sort used by `rank`: the series sorted by `≤`. -/
def sortedVals (xs : List ℚ) : List ℚ :=
  xs.insertionSort (· ≤ ·)

theorem sortedVals_sorted (xs : List ℚ) :
    (sortedVals xs).Sorted (· ≤ ·) :=
  List.sorted_insertionSort _ xs

theorem sortedVals_perm (xs : List ℚ) : (sortedVals xs).Perm xs :=
  List.perm_insertionSort _ xs

/-- In a `≤`-sorted list, a downward-closed Boolean predicate holds
exactly on the prefix of length `countP`. -/
theorem sorted_get_iff_lt_countP (P : ℚ → Bool)
    (hP : ∀ a b : ℚ, a ≤ b → P b = true → P a = true) :
    ∀ (s : List ℚ), s.Sorted (· ≤ ·) →
      ∀ i (h : i < s.length), (P (s.get ⟨i, h⟩) = true ↔ i < s.countP P) := by
  intro s
  induction s with
  | nil => intro _ i h; exact absurd h (Nat.not_lt_zero i)
  | cons a t ih =>
    intro hs i h
    rw [List.sorted_cons] at hs
    obtain ⟨ha, ht⟩ := hs
    have hctP : (a :: t).countP P = t.countP P + if P a then 1 else 0 :=
      List.countP_cons P a t
    have hzero : P a = false → t.countP P = 0 := by
      intro hfa
      by_contra hne
      have hpos : 0 < t.countP P := Nat.pos_of_ne_zero hne
      rw [List.countP_pos_iff] at hpos
      obtain ⟨b, hb, hPb⟩ := hpos
      have := hP a b (ha b hb) hPb
      rw [hfa] at this
      exact Bool.false_ne_true this
    cases i with
    | zero =>
      simp only [List.get]
      constructor
      · intro hPa
        rw [hctP, hPa]
        simp
      · intro hpos
        by_contra hfa
        have hfa' : P a = false := Bool.eq_false_iff.mpr hfa
        rw [hctP, hzero hfa', hfa'] at hpos
        simp at hpos
    | succ i =>
      have hlen : i < t.length := Nat.lt_of_succ_lt_succ h
      have hget : (a :: t).get ⟨i + 1, h⟩ = t.get ⟨i, hlen⟩ := rfl
      rw [hget, ih ht i hlen, hctP]
      cases hPa : P a with
      | true =>
        rw [if_pos rfl]
        omega
      | false =>
        rw [hzero hPa, if_neg (by simp)]
        omega

/-- `countP (· ≤ x)` splits as `countP (· < x)` plus the multiplicity of
`x`. -/
theorem countP_le_eq_countP_lt_add_count (xs : List ℚ) (x : ℚ) :
    xs.countP (fun y => decide (y ≤ x)) =
      xs.countP (fun y => decide (y < x)) + xs.count x := by
  induction xs with
  | nil => simp
  | cons a t ih =>
    rw [List.countP_cons, List.countP_cons, List.count_cons]
    rcases lt_trichotomy a x with hlt | heq | hgt
    · have h1 : decide (a ≤ x) = true := by simp [le_of_lt hlt]
      have h2 : decide (a < x) = true := by simp [hlt]
      have h3 : (a == x) = false := by simp [ne_of_lt hlt]
      rw [h1, h2, h3]
      simp [ih]
      omega
    · subst heq
      have h1 : decide (a ≤ a) = true := by simp
      have h2 : decide (a < a) = true ↔ False := by simp
      have h3 : (a == a) = true := by simp
      rw [h1, h3]
      simp [ih]
      omega
    · have h1 : decide (a ≤ x) = true ↔ False := by simp [not_le.mpr hgt]
      have h2 : decide (a < x) = true ↔ False := by simp [not_lt.mpr (le_of_lt hgt)]
      have h3 : (a == x) = false := by simp [(ne_of_gt hgt)]
      rw [h3]
      simp only [decide_eq_true_eq]
      rw [if_neg (not_le.mpr hgt), if_neg (not_lt.mpr (le_of_lt hgt))]
      simp [ih]

/-- In the ascending sort of `xs`, the occurrences of `x` sit exactly at
the 0-indexed positions `countLt xs x ≤ i < countLt xs x + count x`. -/
theorem sortedVals_get_eq_iff (xs : List ℚ) (x : ℚ)
    (i : ℕ) (h : i < (sortedVals xs).length) :
    (sortedVals xs).get ⟨i, h⟩ = x ↔
      countLt xs x ≤ i ∧ i < countLt xs x + xs.count x := by
  have hperm := sortedVals_perm xs
  have hsort := sortedVals_sorted xs
  have hlt := sorted_get_iff_lt_countP (fun y => decide (y < x))
    (fun a b hab hb => by
      simp only [decide_eq_true_eq] at *
      exact lt_of_le_of_lt hab hb) (sortedVals xs) hsort i h
  have hle := sorted_get_iff_lt_countP (fun y => decide (y ≤ x))
    (fun a b hab hb => by
      simp only [decide_eq_true_eq] at *
      exact le_trans hab hb) (sortedVals xs) hsort i h
  have hcnt_lt : (sortedVals xs).countP (fun y => decide (y < x)) = countLt xs x :=
    hperm.countP_eq _
  have hcnt_le : (sortedVals xs).countP (fun y => decide (y ≤ x)) =
      countLt xs x + xs.count x := by
    rw [countP_le_eq_countP_lt_add_count, hperm.countP_eq, hperm.count_eq]
    rfl
  rw [hcnt_lt] at hlt
  rw [hcnt_le] at hle
  constructor
  · intro hx
    have h1 : decide ((sortedVals xs).get ⟨i, h⟩ < x) = false := by
      rw [hx]; simp
    have h2 : decide ((sortedVals xs).get ⟨i, h⟩ ≤ x) = true := by
      rw [hx]; simp
    have hA : ¬ i < countLt xs x := fun hc => by
      have := hlt.mpr hc
      rw [h1] at this
      exact Bool.false_ne_true this
    exact ⟨Nat.le_of_not_lt hA, hle.mp h2⟩
  · intro ⟨h1, h2⟩
    have hle' : (sortedVals xs).get ⟨i, h⟩ ≤ x := by
      have := hle.mpr h2
      simpa using this
    have hlt' : ¬ (sortedVals xs).get ⟨i, h⟩ < x := by
      intro hc
      have : i < countLt xs x := hlt.mp (by simpa using hc)
      omega
    exact le_antisymm hle' (le_of_not_lt hlt')

/-- Sum of the 1-indexed positions `c+1 .. c+k`. -/
theorem sum_positions (c k : ℕ) :
    (∑ j ∈ Finset.Icc (c + 1) (c + k), (j : ℚ)) =
      (k : ℚ) * c + (k : ℚ) * ((k : ℚ) + 1) / 2 := by
  induction k with
  | zero => simp
  | succ k ih =>
    have h : c + 1 ≤ c + k + 1 := by omega
    have : c + (k + 1) = (c + k) + 1 := by omega
    rw [this, Finset.sum_Icc_succ_top h, ih]
    push_cast
    ring

theorem fracRank_eq_avg_positions (xs : List ℚ) (x : ℚ) (hx : x ∈ xs) :
    fracRank xs x =
      (∑ j ∈ Finset.Icc (countLt xs x + 1) (countLt xs x + xs.count x), (j : ℚ)) /
        (xs.count x : ℚ) := by
  have hk : 0 < xs.count x := List.count_pos_iff.mpr hx
  have hkQ : (xs.count x : ℚ) ≠ 0 := by
    exact_mod_cast Nat.pos_iff_ne_zero.mp hk
  rw [sum_positions, fracRank]
  field_simp
  ring

end CommunityHealth

namespace CommunityHealth

/-! ### Improved-processor store (`improved_data_structure.py`)

`CountyHealthDataProcessor` persists a `metric_metadata` table (one row
per metric id, with category, subcategory, leaf metric name and the
`higher_is_better` flag) and a `raw_metrics` table (one row per present
`(fips, metric_id)` value; a missing cell produces no row).
`import_from_wide_format` gives a two-segment column the leaf metric name
equal to its subcategory, so such a row is the subcategory's index
metric. -/

/-- One `metric_metadata` row. -/
structure MetricMeta where
  metric_id : String
  category : String
  subcategory : String
  metric : String
  higher_is_better : Bool
deriving DecidableEq

/-- One `raw_metrics` row; rows exist only for present values. -/
structure RawMetric where
  fips : ℤ
  metric_id : String
  value : ℚ
deriving DecidableEq

/-- The two persisted tables the aggregation queries read. -/
structure ImprovedDB where
  metric_metadata : List MetricMeta
  raw_metrics : List RawMetric
deriving DecidableEq

/-- Metadata lookup by primary key (`JOIN metric_metadata`). -/
def metaFor (db : ImprovedDB) (id : String) : Option MetricMeta :=
  db.metric_metadata.find? (fun m => m.metric_id == id)

/-- Whether the joined metadata of `id` carries the given category and
subcategory. -/
def metaMatch (db : ImprovedDB) (id cat sub : String) : Bool :=
  match metaFor db id with
  | some m => m.category == cat && m.subcategory == sub
  | none => false

/-- The `raw_metrics` rows grouped under `(fips, category, subcategory)`
by the `calculate_aggregated_scores` join. -/
def subcatRows (db : ImprovedDB) (f : ℤ) (cat sub : String) :
    List RawMetric :=
  db.raw_metrics.filter (fun r => r.fips == f && metaMatch db r.metric_id cat sub)

/-- Arithmetic mean (SQL `AVG` over the rows of one group). -/
def mean (l : List ℚ) : ℚ :=
  l.sum / (l.length : ℚ)

/-- Subcategory raw score: `AVG(r.value)` over the group, emitted only
when the group is non-empty (SQL `GROUP BY` emits no empty groups). -/
def subcatScore (db : ImprovedDB) (f : ℤ) (cat sub : String) : Option ℚ :=
  let rows := subcatRows db f cat sub
  if rows.isEmpty then none
  else some (mean (rows.map RawMetric.value))

/-- A row is an index-metric row when its joined leaf metric name equals
its subcategory (the shape `import_from_wide_format` gives a
two-segment column). -/
def rowIsIndex (db : ImprovedDB) (r : RawMetric) : Bool :=
  match metaFor db r.metric_id with
  | some m => m.metric == m.subcategory
  | none => false

/-- The component-metric values present in one `(fips, category,
subcategory)` group. -/
def componentVals (db : ImprovedDB) (f : ℤ) (cat sub : String) : List ℚ :=
  ((subcatRows db f cat sub).filter (fun r => !rowIsIndex db r)).map
    RawMetric.value

/-- The index-metric values present in one `(fips, category,
subcategory)` group. -/
def indexVals (db : ImprovedDB) (f : ℤ) (cat sub : String) : List ℚ :=
  ((subcatRows db f cat sub).filter (fun r => rowIsIndex db r)).map
    RawMetric.value

theorem filter_partition_value_sum (l : List RawMetric)
    (q : RawMetric → Bool) :
    ((l.filter q).map RawMetric.value).sum +
        ((l.filter (fun r => !q r)).map RawMetric.value).sum =
      (l.map RawMetric.value).sum ∧
    (l.filter q).length + (l.filter (fun r => !q r)).length = l.length := by
  induction l with
  | nil => simp
  | cons a t ih =>
    obtain ⟨hs, hl⟩ := ih
    cases hq : q a with
    | true =>
      refine ⟨?_, ?_⟩
      · simp only [List.filter_cons, hq, Bool.not_true, if_pos, if_neg,
          List.map_cons, List.sum_cons, Bool.false_eq_true, if_false]
        rw [← hs]
        ring
      · simp only [List.filter_cons, hq, Bool.not_true, List.length_cons,
          Bool.false_eq_true, if_false, if_true]
        omega
    | false =>
      refine ⟨?_, ?_⟩
      · simp only [List.filter_cons, hq, Bool.not_false, if_pos,
          List.map_cons, List.sum_cons, Bool.false_eq_true, if_false, if_true]
        rw [← hs]
        ring
      · simp only [List.filter_cons, hq, Bool.not_false, List.length_cons,
          Bool.false_eq_true, if_false, if_true]
        omega

/-- `subcatScore` in terms of the component/index partition of the
group's present values. -/
theorem subcatScore_eq_partition (db : ImprovedDB) (f : ℤ) (cat sub : String)
    (h : subcatRows db f cat sub ≠ []) :
    subcatScore db f cat sub =
      some (((componentVals db f cat sub).sum + (indexVals db f cat sub).sum) /
        (((componentVals db f cat sub).length : ℚ) +
          ((indexVals db f cat sub).length : ℚ))) := by
  have hpart := filter_partition_value_sum (subcatRows db f cat sub)
    (fun r => rowIsIndex db r)
  have hne : (subcatRows db f cat sub).isEmpty = false := by
    cases hrows : subcatRows db f cat sub with
    | nil => exact absurd hrows h
    | cons a l => rfl
  have h1 : (List.map RawMetric.value (subcatRows db f cat sub)).sum =
      (componentVals db f cat sub).sum + (indexVals db f cat sub).sum := by
    rw [componentVals, indexVals, ← hpart.1]
    ring
  have h2 : ((List.map RawMetric.value (subcatRows db f cat sub)).length : ℚ) =
      ((componentVals db f cat sub).length : ℚ) +
        ((indexVals db f cat sub).length : ℚ) := by
    rw [componentVals, indexVals, List.length_map, List.length_map,
      List.length_map]
    rw [← hpart.2]
    push_cast
    ring
  rw [subcatScore]
  simp only [hne, Bool.false_eq_true, if_false]
  rw [mean, h1, h2]

/-- **C1.** For every metric value list and every value present in it, the
percentile equals the fractional rank divided by `N` times 100, where the
fractional rank is the average of the 1-indexed positions `p .. p+k-1`
occupied by the run of `k` tied copies of the value in the ascending sort
(the first conjunct locates that run, the second equates the percentile
with the averaged positions over `N`); two entries holding identical raw
values receive identical percentiles, and `[10, 10, 20]` yields
percentiles `[50, 50, 100]`. -/
theorem pctRank_eq_avg_tied_positions_div_n (xs : List ℚ) (x : ℚ)
    (hx : x ∈ xs) :
    (∀ i (h : i < (sortedVals xs).length),
        ((sortedVals xs).get ⟨i, h⟩ = x ↔
          countLt xs x + 1 ≤ i + 1 ∧ i + 1 ≤ countLt xs x + xs.count x)) ∧
    pctRank xs x =
      ((∑ j ∈ Finset.Icc (countLt xs x + 1) (countLt xs x + xs.count x),
          (j : ℚ)) / (xs.count x : ℚ)) / (xs.length : ℚ) * 100 ∧
    (∀ y ∈ xs, y = x → pctRank xs y = pctRank xs x) ∧
    (pctRank [10, 10, 20] 10 = 50 ∧ pctRank [10, 10, 20] 10 = 50 ∧
      pctRank [10, 10, 20] 20 = 100) := by
  refine ⟨?_, ?_, ?_, ?_, ?_, ?_⟩
  · intro i h
    rw [sortedVals_get_eq_iff xs x i h]
    omega
  · rw [pctRank, fracRank_eq_avg_positions xs x hx]
  · intro y _ hyx
    rw [hyx]
  · norm_num [pctRank, fracRank, countLt]
  · norm_num [pctRank, fracRank, countLt]
  · norm_num [pctRank, fracRank, countLt]

theorem pctRank_eq_avg_tied_positions_div_n_witness :
    (10 : ℚ) ∈ ([10, 10, 20] : List ℚ) ∧
    pctRank [10, 10, 20] 10 =
      ((∑ j ∈ Finset.Icc (countLt [10, 10, 20] 10 + 1)
          (countLt [10, 10, 20] 10 + List.count (10 : ℚ) [10, 10, 20]),
          (j : ℚ)) / (List.count (10 : ℚ) [10, 10, 20] : ℚ)) /
        (([10, 10, 20] : List ℚ).length : ℚ) * 100 :=
  ⟨by decide,
    (pctRank_eq_avg_tied_positions_div_n [10, 10, 20] 10 (by decide)).2.1⟩

theorem componentVals_ne_nil_rows_ne_nil (db : ImprovedDB) (f : ℤ)
    (cat sub : String) (h : componentVals db f cat sub ≠ []) :
    subcatRows db f cat sub ≠ [] := by
  intro hrows
  apply h
  rw [componentVals, hrows]
  rfl

theorem indexVals_ne_nil_rows_ne_nil (db : ImprovedDB) (f : ℤ)
    (cat sub : String) (h : indexVals db f cat sub ≠ []) :
    subcatRows db f cat sub ≠ [] := by
  intro hrows
  apply h
  rw [indexVals, hrows]
  rfl

/-- A group holding one index value (50) and one component value (10)
for region 1 of subcategory `society/health`. -/
def exC2 : ImprovedDB :=
  ⟨[⟨"society_health_health", "society", "health", "health", true⟩,
    ⟨"society_health_life_expectancy", "society", "health",
      "life_expectancy", true⟩],
   [⟨1, "society_health_life_expectancy", 10⟩,
    ⟨1, "society_health_health", 50⟩]⟩

/-- **C2, counterexample.** In `exC2` region 1 has one present component
value, 10, so the claim says the subcategory raw score is 10; the code
averages the index row in as well and yields 30. -/
theorem subcatScore_not_mean_of_components_only :
    componentVals exC2 1 "society" "health" = [10] ∧
    subcatScore exC2 1 "society" "health" = some 30 ∧
    subcatScore exC2 1 "society" "health" ≠
      some (mean (componentVals exC2 1 "society" "health")) := by
  have hrows : subcatRows exC2 1 "society" "health" =
      [⟨1, "society_health_life_expectancy", 10⟩,
       ⟨1, "society_health_health", 50⟩] := by decide
  have hcomp : componentVals exC2 1 "society" "health" = [10] := by decide
  have hscore : subcatScore exC2 1 "society" "health" = some 30 := by
    rw [subcatScore]
    simp only [hrows]
    norm_num [mean]
  refine ⟨hcomp, hscore, ?_⟩
  rw [hscore, hcomp]
  norm_num [mean]

/-- **C2, amended.** When the group's present values consist of exactly
one component value and no index value, the subcategory raw score equals
that single value: SQL `AVG` divides by the count of present rows, so
absent sibling components are excluded from the divisor, never counted
as zero. (The unamended claim fails only when an index-metric row is
also present; the code then averages it in, see the counterexample.) -/
theorem subcatScore_single_present_component (db : ImprovedDB) (f : ℤ)
    (cat sub : String) (v : ℚ)
    (hc : componentVals db f cat sub = [v])
    (hi : indexVals db f cat sub = []) :
    subcatScore db f cat sub = some v := by
  have hne : subcatRows db f cat sub ≠ [] :=
    componentVals_ne_nil_rows_ne_nil db f cat sub (by rw [hc]; simp)
  rw [subcatScore_eq_partition db f cat sub hne, hc, hi]
  norm_num

/-- Four sibling component metrics in the catalog, exactly one of them
present for region 7, no index value. -/
def exC2w : ImprovedDB :=
  ⟨[⟨"society_health_a", "society", "health", "a", true⟩,
    ⟨"society_health_b", "society", "health", "b", true⟩,
    ⟨"society_health_c", "society", "health", "c", true⟩,
    ⟨"society_health_d", "society", "health", "d", true⟩],
   [⟨7, "society_health_a", 42⟩]⟩

theorem subcatScore_single_present_component_witness :
    componentVals exC2w 7 "society" "health" = [42] ∧
    indexVals exC2w 7 "society" "health" = [] ∧
    subcatScore exC2w 7 "society" "health" = some 42 :=
  ⟨by decide, by decide,
    subcatScore_single_present_component exC2w 7 "society" "health" 42
      (by decide) (by decide)⟩

/-- A group holding one index value (80) and one component value (20)
for region 2 of subcategory `society/health`. -/
def exC3 : ImprovedDB :=
  ⟨[⟨"society_health_health", "society", "health", "health", true⟩,
    ⟨"society_health_obesity", "society", "health", "obesity", true⟩],
   [⟨2, "society_health_obesity", 20⟩,
    ⟨2, "society_health_health", 80⟩]⟩

/-- **C3, counterexample.** In `exC3` region 2 has a component value, 20,
next to an index value, 80; the claim says the raw score is the mean of
the component values alone (20, the index value staying out of the
average), but the code averages both rows and yields 50. -/
theorem subcatScore_index_not_excluded :
    componentVals exC3 2 "society" "health" = [20] ∧
    indexVals exC3 2 "society" "health" = [80] ∧
    subcatScore exC3 2 "society" "health" = some 50 ∧
    subcatScore exC3 2 "society" "health" ≠
      some (mean (componentVals exC3 2 "society" "health")) := by
  have hrows : subcatRows exC3 2 "society" "health" =
      [⟨2, "society_health_obesity", 20⟩,
       ⟨2, "society_health_health", 80⟩] := by decide
  have hcomp : componentVals exC3 2 "society" "health" = [20] := by decide
  have hscore : subcatScore exC3 2 "society" "health" = some 50 := by
    rw [subcatScore]
    simp only [hrows]
    norm_num [mean]
  refine ⟨hcomp, by decide, hscore, ?_⟩
  rw [hscore, hcomp]
  norm_num [mean]

/-- **C3, amended.** The index metric's value serves as the subcategory
raw score on its own only when it is the group's only present value;
whenever a component value is also present, the code averages the index
value together with the component values instead of discarding it. -/
theorem subcatScore_index_direct_or_averaged (db : ImprovedDB) (f : ℤ)
    (cat sub : String) (v w : ℚ) :
    (componentVals db f cat sub = [] → indexVals db f cat sub = [w] →
      subcatScore db f cat sub = some w) ∧
    (componentVals db f cat sub = [v] → indexVals db f cat sub = [w] →
      subcatScore db f cat sub = some ((v + w) / 2)) := by
  constructor
  · intro hc hi
    have hne : subcatRows db f cat sub ≠ [] :=
      indexVals_ne_nil_rows_ne_nil db f cat sub (by rw [hi]; simp)
    rw [subcatScore_eq_partition db f cat sub hne, hc, hi]
    norm_num
  · intro hc hi
    have hne : subcatRows db f cat sub ≠ [] :=
      indexVals_ne_nil_rows_ne_nil db f cat sub (by rw [hi]; simp)
    rw [subcatScore_eq_partition db f cat sub hne, hc, hi]
    norm_num

theorem subcatScore_index_direct_or_averaged_witness :
    componentVals exC3 2 "society" "health" = [20] ∧
    indexVals exC3 2 "society" "health" = [80] ∧
    subcatScore exC3 2 "society" "health" = some ((20 + 80) / 2) :=
  ⟨by decide, by decide,
    (subcatScore_index_direct_or_averaged exC3 2 "society" "health" 20 80).2
      (by decide) (by decide)⟩

/-! ### `calculate_percentiles` (`improved_data_structure.py` lines 218-256)

For each metric joined with its metadata, the routine reads all its
`raw_metrics` values, computes the percentile ranks (inverted when
`higher_is_better` is false), and writes each percentile back into the
`value` column of the same `raw_metrics` row with
`UPDATE raw_metrics SET value = ?`. -/

/-- All stored values of one metric (`SELECT fips, value FROM
raw_metrics WHERE metric_id = ...`). -/
def metricValues (db : ImprovedDB) (id : String) : List ℚ :=
  (db.raw_metrics.filter (fun r => r.metric_id == id)).map RawMetric.value

/-- The percentile written over one row's value; a row whose metric id
has no metadata entry is never selected by the join and keeps its
value. -/
def rankedValue (db : ImprovedDB) (r : RawMetric) : ℚ :=
  match metaFor db r.metric_id with
  | some m =>
    if m.higher_is_better then pctRank (metricValues db r.metric_id) r.value
    else pctRankInv (metricValues db r.metric_id) r.value
  | none => r.value

/-- The whole-table effect of `calculate_percentiles`: every selected
row's `value` is replaced by its percentile rank; the metadata table is
untouched. -/
def calculatePercentiles (db : ImprovedDB) : ImprovedDB :=
  ⟨db.metric_metadata,
    db.raw_metrics.map (fun r => ⟨r.fips, r.metric_id, rankedValue db r⟩)⟩

/-- One higher-is-better metric with raw values 1 and 2. -/
def exC10a : ImprovedDB :=
  ⟨[⟨"m", "c", "s", "x", true⟩], [⟨1, "m", 1⟩, ⟨2, "m", 2⟩]⟩

/-- Same metric with raw values 3 and 4: same ranks as `exC10a`. -/
def exC10b : ImprovedDB :=
  ⟨[⟨"m", "c", "s", "x", true⟩], [⟨1, "m", 3⟩, ⟨2, "m", 4⟩]⟩

/-- One lower-is-better metric with raw values 1 and 2. -/
def exC10c : ImprovedDB :=
  ⟨[⟨"m", "c", "s", "x", false⟩], [⟨1, "m", 1⟩, ⟨2, "m", 2⟩]⟩

/-- **C10.** `calculate_percentiles` destructively overwrites the
`value` column of `raw_metrics` with each row's percentile rank: every
group a later aggregation averages holds percentile ranks in place of
the raw values (first two conjuncts); two tables with different raw
values collapse to the same overwritten table, so the original values
are no longer stored anywhere (third conjunct); and a second invocation
ranks the already-ranked percentiles — on an inverted metric it changes
the table again (last conjunct). -/
theorem calculatePercentiles_overwrites_values :
    (∀ db : ImprovedDB, (calculatePercentiles db).raw_metrics =
      db.raw_metrics.map (fun r => ⟨r.fips, r.metric_id, rankedValue db r⟩)) ∧
    (∀ (db : ImprovedDB) (f : ℤ) (cat sub : String),
      (subcatRows (calculatePercentiles db) f cat sub).map RawMetric.value =
        (subcatRows db f cat sub).map (fun r => rankedValue db r)) ∧
    (calculatePercentiles exC10a = calculatePercentiles exC10b ∧
      exC10a ≠ exC10b) ∧
    calculatePercentiles (calculatePercentiles exC10c) ≠
      calculatePercentiles exC10c := by
  have hmap : ∀ (db : ImprovedDB) (f : ℤ) (cat sub : String),
      subcatRows (calculatePercentiles db) f cat sub =
        (subcatRows db f cat sub).map
          (fun r => ⟨r.fips, r.metric_id, rankedValue db r⟩) := by
    intro db f cat sub
    rw [subcatRows, subcatRows, calculatePercentiles, List.filter_map]
    rfl
  have ha : calculatePercentiles exC10a =
      ⟨[⟨"m", "c", "s", "x", true⟩], [⟨1, "m", 50⟩, ⟨2, "m", 100⟩]⟩ := by
    have h1 : rankedValue exC10a ⟨1, "m", 1⟩ = 50 := by
      rw [rankedValue]
      norm_num [metaFor, exC10a, metricValues, pctRank, fracRank, countLt]
    have h2 : rankedValue exC10a ⟨2, "m", 2⟩ = 100 := by
      rw [rankedValue]
      norm_num [metaFor, exC10a, metricValues, pctRank, fracRank, countLt]
    have hraw : exC10a.raw_metrics = [⟨1, "m", 1⟩, ⟨2, "m", 2⟩] := rfl
    rw [calculatePercentiles, hraw]
    simp only [List.map_cons, List.map_nil]
    rw [h1, h2]
    rfl
  have hb : calculatePercentiles exC10b =
      ⟨[⟨"m", "c", "s", "x", true⟩], [⟨1, "m", 50⟩, ⟨2, "m", 100⟩]⟩ := by
    have h1 : rankedValue exC10b ⟨1, "m", 3⟩ = 50 := by
      rw [rankedValue]
      norm_num [metaFor, exC10b, metricValues, pctRank, fracRank, countLt]
    have h2 : rankedValue exC10b ⟨2, "m", 4⟩ = 100 := by
      rw [rankedValue]
      norm_num [metaFor, exC10b, metricValues, pctRank, fracRank, countLt]
    have hraw : exC10b.raw_metrics = [⟨1, "m", 3⟩, ⟨2, "m", 4⟩] := rfl
    rw [calculatePercentiles, hraw]
    simp only [List.map_cons, List.map_nil]
    rw [h1, h2]
    rfl
  have hc : calculatePercentiles exC10c =
      ⟨[⟨"m", "c", "s", "x", false⟩], [⟨1, "m", 50⟩, ⟨2, "m", 0⟩]⟩ := by
    have h1 : rankedValue exC10c ⟨1, "m", 1⟩ = 50 := by
      rw [rankedValue]
      norm_num [metaFor, exC10c, metricValues, pctRankInv, fracRank, countLt]
    have h2 : rankedValue exC10c ⟨2, "m", 2⟩ = 0 := by
      rw [rankedValue]
      norm_num [metaFor, exC10c, metricValues, pctRankInv, fracRank, countLt]
    have hraw : exC10c.raw_metrics = [⟨1, "m", 1⟩, ⟨2, "m", 2⟩] := rfl
    rw [calculatePercentiles, hraw]
    simp only [List.map_cons, List.map_nil]
    rw [h1, h2]
    rfl
  have hcc : calculatePercentiles
      (⟨[⟨"m", "c", "s", "x", false⟩], [⟨1, "m", 50⟩, ⟨2, "m", 0⟩]⟩ :
        ImprovedDB) =
      ⟨[⟨"m", "c", "s", "x", false⟩], [⟨1, "m", 0⟩, ⟨2, "m", 50⟩]⟩ := by
    have h1 : rankedValue
        (⟨[⟨"m", "c", "s", "x", false⟩], [⟨1, "m", 50⟩, ⟨2, "m", 0⟩]⟩ :
          ImprovedDB) ⟨1, "m", 50⟩ = 0 := by
      rw [rankedValue]
      norm_num [metaFor, metricValues, pctRankInv, fracRank, countLt]
    have h2 : rankedValue
        (⟨[⟨"m", "c", "s", "x", false⟩], [⟨1, "m", 50⟩, ⟨2, "m", 0⟩]⟩ :
          ImprovedDB) ⟨2, "m", 0⟩ = 50 := by
      rw [rankedValue]
      norm_num [metaFor, metricValues, pctRankInv, fracRank, countLt]
    rw [calculatePercentiles]
    simp only [List.map_cons, List.map_nil]
    rw [h1, h2]
  refine ⟨fun db => rfl, ?_, ⟨?_, by decide⟩, ?_⟩
  · intro db f cat sub
    rw [hmap db f cat sub, List.map_map]
    rfl
  · rw [ha, hb]
  · rw [hc, hcc]
    decide

/-! ### Column taxonomy parser

`FlexibleMetricHierarchy._build_from_columns` (`county_health_etl.py`
lines 34-70): split each column name on `'_'`; names with fewer than two
segments are skipped; segment 0 upper-cased is the top level, segment 1
upper-cased the sub-category; a name with exactly two segments, or whose
third segment upper-cases to the sub-category, is an index metric named
`<SUB_CATEGORY>_INDEX` with `requires_calculation = True`, and otherwise
the remaining segments are joined into the metric name with
`requires_calculation = False`. -/

/-- One metric definition, as in the `MetricDefinition` dataclass. -/
structure MetricDefinition where
  top_level : String
  sub_category : String
  metric_name : String
  full_name : String
  requires_calculation : Bool
deriving DecidableEq

/-- Python's `col.split('_')`, on the character list of the name: every
occurrence of `'_'` is a separator, adjacent separators yield empty
segments, and the empty name yields one empty segment. -/
def splitSegs : List Char → List (List Char)
  | [] => [[]]
  | c :: rest =>
    if c = '_' then [] :: splitSegs rest
    else
      match splitSegs rest with
      | s :: ss => (c :: s) :: ss
      | [] => [[c]]

/-- Python's `seg.upper()` on an ASCII segment. -/
def upperSeg (s : List Char) : List Char :=
  s.map Char.toUpper

/-- Classification of a single column name by `_build_from_columns`;
`none` models the skipped fewer-than-two-segments case. -/
def buildFromColumn (col : String) : Option MetricDefinition :=
  match splitSegs col.data with
  | p0 :: p1 :: rest =>
    let top_level := String.mk (upperSeg p0)
    let sub_category := String.mk (upperSeg p1)
    match rest with
    | [] =>
      some ⟨top_level, sub_category, sub_category ++ "_INDEX", col, true⟩
    | p2 :: _ =>
      if String.mk (upperSeg p2) = sub_category then
        some ⟨top_level, sub_category, sub_category ++ "_INDEX", col, true⟩
      else
        some ⟨top_level, sub_category,
          String.intercalate "_" (rest.map String.mk), col, false⟩
  | _ => none

/-- **C4.** Splitting an input column name on `'_'`: a name with exactly
two segments, or whose third segment case-normalizes to the sub-category
token, is classified as an index metric named `<SUBCATEGORY>_INDEX` with
`requires_calculation = true`; otherwise segments 2.. are joined into the
metric name with `requires_calculation = false`. Concretely,
`"Society_HEALTH"` maps to the index metric `HEALTH_INDEX` and
`"Economy_Business_GDPGrowth"` to the component metric `GDPGrowth`. -/
theorem buildFromColumn_classification (col : String) (p0 p1 : List Char)
    (rest : List (List Char))
    (hsplit : splitSegs col.data = p0 :: p1 :: rest) :
    ((rest = [] ∨ upperSeg (rest.headD []) = upperSeg p1) →
      buildFromColumn col =
        some ⟨String.mk (upperSeg p0), String.mk (upperSeg p1),
          String.mk (upperSeg p1) ++ "_INDEX", col, true⟩) ∧
    ((rest ≠ [] ∧ upperSeg (rest.headD []) ≠ upperSeg p1) →
      buildFromColumn col =
        some ⟨String.mk (upperSeg p0), String.mk (upperSeg p1),
          String.intercalate "_" (rest.map String.mk), col, false⟩) ∧
    buildFromColumn "Society_HEALTH" =
      some ⟨"SOCIETY", "HEALTH", "HEALTH_INDEX", "Society_HEALTH", true⟩ ∧
    buildFromColumn "Economy_Business_GDPGrowth" =
      some ⟨"ECONOMY", "BUSINESS", "GDPGrowth", "Economy_Business_GDPGrowth",
        false⟩ := by
  refine ⟨?_, ?_, ?_, ?_⟩
  · intro hidx
    rw [buildFromColumn, hsplit]
    cases rest with
    | nil => rfl
    | cons p2 rs =>
      rcases hidx with h | h
      · exact absurd h (List.cons_ne_nil p2 rs)
      · simp only [List.headD_cons] at h
        have : String.mk (upperSeg p2) = String.mk (upperSeg p1) := by rw [h]
        simp [this]
  · intro ⟨hne, hup⟩
    rw [buildFromColumn, hsplit]
    cases rest with
    | nil => exact absurd rfl hne
    | cons p2 rs =>
      simp only [List.headD_cons] at hup
      have : String.mk (upperSeg p2) ≠ String.mk (upperSeg p1) := by
        intro hc
        exact hup (congrArg String.data hc)
      simp [this]
  · decide
  · decide

theorem buildFromColumn_classification_witness :
    buildFromColumn "Society_HEALTH" =
      some ⟨"SOCIETY", "HEALTH", "HEALTH_INDEX", "Society_HEALTH", true⟩ :=
  (buildFromColumn_classification "Society_HEALTH" "Society".data "HEALTH".data
    [] (by decide)).2.2.1

/-- **C5.** For every value list and value, the percentile computed with
`higherIsBetter = false` equals 100 minus the percentile computed with
`higherIsBetter = true` on the same value list. -/
theorem pctRankInv_eq_hundred_sub_pctRank (xs : List ℚ) (x : ℚ) :
    pctRankInv xs x = 100 - pctRank xs x := by
  rw [pctRankInv, pctRank]
  ring

/-! ### Region-identifier normalization

`df['county_fips'].astype(str).str.replace('.0', '').str.zfill(5)`
(`county_health_etl.py` line 119, `run_simple_etl.py` line 18).
With its default `regex=False`, `str.replace` deletes every
non-overlapping occurrence of the literal substring `".0"`, scanning
left to right; `zfill(5)` left-pads with `'0'` to width 5, keeping a
leading sign in front of the padding. -/

/-- Left-to-right deletion of every non-overlapping occurrence of the
substring `".0"`. -/
def removeDotZero : List Char → List Char
  | [] => []
  | [c] => [c]
  | c1 :: c2 :: rest =>
    if c1 = '.' ∧ c2 = '0' then removeDotZero rest
    else c1 :: removeDotZero (c2 :: rest)

/-- Whether the substring `".0"` occurs anywhere in the identifier. -/
def hasDotZero : List Char → Bool
  | [] => false
  | [_] => false
  | c1 :: c2 :: rest =>
    if c1 = '.' ∧ c2 = '0' then true else hasDotZero (c2 :: rest)

/-- Python's `str.zfill`. -/
def zfill (w : ℕ) (l : List Char) : List Char :=
  if w ≤ l.length then l
  else
    match l with
    | [] => List.replicate w '0'
    | c :: rest =>
      if c = '+' ∨ c = '-' then
        c :: (List.replicate (w - (rest.length + 1)) '0' ++ rest)
      else List.replicate (w - (rest.length + 1)) '0' ++ (c :: rest)

/-- The region-identifier normalization applied by `clean_data` and
`run_simple_etl`. -/
def fipsNormalize (s : String) : String :=
  String.mk (zfill 5 (removeDotZero s.data))

/-- The claim's reading of the normalization: remove only a trailing
`".0"` artifact, leave everything else intact, then pad. -/
def fipsNormalizeTrailingOnly (s : String) : String :=
  let l := s.data
  let stripped :=
    if l.reverse.take 2 = ['0', '.'] then (l.reverse.drop 2).reverse else l
  String.mk (zfill 5 stripped)

/-- **C8, counterexample.** On `"10.001"` the code removes the interior
`".0"` and yields `"01001"`, while the claim's trailing-only reading
leaves `"10.001"` unchanged. -/
theorem fipsNormalize_not_trailing_only :
    fipsNormalize "10.001" = "01001" ∧
    fipsNormalizeTrailingOnly "10.001" = "10.001" ∧
    fipsNormalize "10.001" ≠ fipsNormalizeTrailingOnly "10.001" :=
  ⟨by decide, by decide, by decide⟩

theorem removeDotZero_no_occurrence (l : List Char)
    (h : hasDotZero l = false) : removeDotZero l = l := by
  induction l with
  | nil => rfl
  | cons c rest ih =>
    cases rest with
    | nil => rfl
    | cons c2 r2 =>
      have hcond : ¬(c = '.' ∧ c2 = '0') := by
        intro hc
        simp only [hasDotZero, if_pos hc] at h
        exact absurd h (by decide)
      have htail : hasDotZero (c2 :: r2) = false := by
        simp only [hasDotZero, if_neg hcond] at h
        exact h
      rw [removeDotZero, if_neg hcond, ih htail]

theorem removeDotZero_trailing (l : List Char)
    (h : hasDotZero l = false) :
    removeDotZero (l ++ ['.', '0']) = l := by
  induction l with
  | nil => decide
  | cons c rest ih =>
    cases rest with
    | nil =>
      have hcond : ¬(c = '.' ∧ ('.' : Char) = '0') := by
        intro hc
        exact absurd hc.2 (by decide)
      show removeDotZero (c :: '.' :: '0' :: []) = [c]
      rw [removeDotZero, if_neg hcond]
      have h2 : removeDotZero ['.', '0'] = [] := by decide
      rw [h2]
    | cons c2 r2 =>
      have hcond : ¬(c = '.' ∧ c2 = '0') := by
        intro hc
        simp only [hasDotZero, if_pos hc] at h
        exact absurd h (by decide)
      have htail : hasDotZero (c2 :: r2) = false := by
        simp only [hasDotZero, if_neg hcond] at h
        exact h
      show removeDotZero (c :: c2 :: (r2 ++ ['.', '0'])) = c :: c2 :: r2
      rw [removeDotZero, if_neg hcond]
      have : c2 :: (r2 ++ ['.', '0']) = (c2 :: r2) ++ ['.', '0'] := rfl
      rw [this, ih htail]

theorem zfill_length (w : ℕ) (l : List Char) :
    (zfill w l).length = max w l.length := by
  rw [zfill.eq_def]
  split
  · omega
  · cases l with
    | nil => simp
    | cons c rest =>
      simp only [List.length_cons] at *
      split <;>
        simp only [List.length_cons, List.length_append,
          List.length_replicate] <;>
        omega

/-- **C8, amended.** The normalization coerces the identifier to a
string, removes every non-overlapping occurrence of the substring
`".0"` — not only a trailing artifact — and left-pads the result with
zeros to width 5. On an identifier whose only `".0"` occurrence is the
trailing float artifact this agrees with stripping just that artifact,
and identifiers containing no `".0"` at all are passed through to the
padding untouched. -/
theorem fipsNormalize_strips_all_then_pads (l : List Char)
    (h : hasDotZero l = false) :
    fipsNormalize (String.mk (l ++ ['.', '0'])) = String.mk (zfill 5 l) ∧
    fipsNormalize (String.mk l) = String.mk (zfill 5 l) ∧
    (zfill 5 l).length = max 5 l.length := by
  refine ⟨?_, ?_, zfill_length 5 l⟩
  · rw [fipsNormalize]
    have : (String.mk (l ++ ['.', '0'])).data = l ++ ['.', '0'] := rfl
    rw [this, removeDotZero_trailing l h]
  · rw [fipsNormalize]
    have : (String.mk l).data = l := rfl
    rw [this, removeDotZero_no_occurrence l h]

/-! ### Row sanitizer (`SimpleDataProcessor.clean_data`,
`county_health_etl.py` lines 101-146)

An input row carries the three identity cells (`FIPS`, `State`,
`County`, here already under their renamed labels) and the metric
cells; a pandas `NaN` is `none`.  `clean_data` first drops every row
with a missing identity cell (`dropna(subset=...)`, counting and
logging the removals), then normalizes the identifiers of the surviving
rows; metric cells are never touched. -/

/-- One raw input row after the column rename. -/
structure InputRow where
  county_fips : Option String
  state_name : Option String
  county_name : Option String
  cells : List (String × Option ℚ)
deriving DecidableEq

/-- One sanitized row. -/
structure CleanRow where
  county_fips : String
  state_name : String
  county_name : String
  state_code : String
  cells : List (String × Option ℚ)
deriving DecidableEq

/-- The static full-name-to-code lookup of `clean_data`. -/
def stateMapping : List (String × String) :=
  [("Alabama", "AL"), ("Alaska", "AK"), ("Arizona", "AZ"),
   ("Arkansas", "AR"), ("California", "CA"), ("Colorado", "CO"),
   ("Connecticut", "CT"), ("Delaware", "DE"), ("Florida", "FL"),
   ("Georgia", "GA"), ("Hawaii", "HI"), ("Idaho", "ID"),
   ("Illinois", "IL"), ("Indiana", "IN"), ("Iowa", "IA"),
   ("Kansas", "KS"), ("Kentucky", "KY"), ("Louisiana", "LA"),
   ("Maine", "ME"), ("Maryland", "MD"), ("Massachusetts", "MA"),
   ("Michigan", "MI"), ("Minnesota", "MN"), ("Mississippi", "MS"),
   ("Missouri", "MO"), ("Montana", "MT"), ("Nebraska", "NE"),
   ("Nevada", "NV"), ("New Hampshire", "NH"), ("New Jersey", "NJ"),
   ("New Mexico", "NM"), ("New York", "NY"), ("North Carolina", "NC"),
   ("North Dakota", "ND"), ("Ohio", "OH"), ("Oklahoma", "OK"),
   ("Oregon", "OR"), ("Pennsylvania", "PA"), ("Rhode Island", "RI"),
   ("South Carolina", "SC"), ("South Dakota", "SD"), ("Tennessee", "TN"),
   ("Texas", "TX"), ("Utah", "UT"), ("Vermont", "VT"),
   ("Virginia", "VA"), ("Washington", "WA"), ("West Virginia", "WV"),
   ("Wisconsin", "WI"), ("Wyoming", "WY"),
   ("District of Columbia", "DC"), ("Puerto Rico", "PR")]

/-- Leading- and trailing-whitespace strip (`str.strip()`). -/
def trimWs (l : List Char) : List Char :=
  ((l.dropWhile Char.isWhitespace).reverse.dropWhile
    Char.isWhitespace).reverse

/-- State code: table lookup, falling back to the upper-cased, stripped
state name for unmapped values. -/
def mapState (s : String) : String :=
  match stateMapping.find? (fun p => p.1 == s) with
  | some p => p.2
  | none => String.mk (trimWs (upperSeg s.data))

/-- Trailing-whitespace strip. -/
def dropTrailingWs (l : List Char) : List Char :=
  (l.reverse.dropWhile Char.isWhitespace).reverse

/-- The county regex `\s+County\s*$` replaced by the empty string: a
final `"County"` preceded by at least one whitespace character, plus any
trailing whitespace, is removed. -/
def stripCountySuffix (l : List Char) : List Char :=
  let t := dropTrailingWs l
  if t.reverse.take 6 = "County".data.reverse then
    let u := (t.reverse.drop 6).reverse
    let v := dropTrailingWs u
    if v.length < u.length then v else t
  else t

/-- Python's `str.title()` on ASCII text: an alphabetic character is
upper-cased after a non-alphabetic character and lower-cased after an
alphabetic one. -/
def titleCaseAux : Bool → List Char → List Char
  | _, [] => []
  | prevAlpha, c :: rest =>
    (if c.isAlpha then (if prevAlpha then c.toLower else c.toUpper) else c) ::
      titleCaseAux c.isAlpha rest

/-- County-name normalization: suffix removal, strip, title-case. -/
def countyNormalize (s : String) : String :=
  String.mk (titleCaseAux false (trimWs (stripCountySuffix s.data)))

/-- `dropna(subset=['county_fips', 'state_name', 'county_name'])`:
whether the row survives. -/
def hasIdentity (r : InputRow) : Bool :=
  r.county_fips.isSome && r.state_name.isSome && r.county_name.isSome

/-- The per-row normalization applied to the surviving rows. -/
def normalizeRow (r : InputRow) : CleanRow :=
  ⟨fipsNormalize (r.county_fips.getD ""),
   r.state_name.getD "",
   countyNormalize (r.county_name.getD ""),
   mapState (r.state_name.getD ""),
   r.cells⟩

/-- `clean_data`: reject rows with a missing identity cell, normalize
the rest. -/
def cleanData (df : List InputRow) : List CleanRow :=
  (df.filter hasIdentity).map normalizeRow

/-- **C7.** A row missing its region identifier, state, or county name
is rejected: the number of dropped rows is exactly the number of rows
with a missing identity cell (first conjunct, the logged skip count);
every output row comes from an identity-complete input row, so rejected
rows reach no output and no default is substituted for them (second
conjunct); and a row whose only defects are missing metric cells is
kept, its metric cells passed through as nulls untouched (third
conjunct). -/
theorem countP_self_add_countP_not (p : InputRow → Bool)
    (l : List InputRow) :
    l.countP p + l.countP (fun a => !p a) = l.length := by
  induction l with
  | nil => simp
  | cons a t ih =>
    rw [List.countP_cons, List.countP_cons]
    cases h : p a <;> simp [h] <;> omega

theorem cleanData_rejects_rows_missing_identity (df : List InputRow) :
    df.length - (cleanData df).length =
      df.countP (fun r => !hasIdentity r) ∧
    (∀ s ∈ cleanData df, ∃ r ∈ df, hasIdentity r = true ∧
      s = normalizeRow r) ∧
    (∀ r ∈ df, hasIdentity r = true →
      normalizeRow r ∈ cleanData df ∧ (normalizeRow r).cells = r.cells) := by
  refine ⟨?_, ?_, ?_⟩
  · have hlen : (cleanData df).length = df.countP hasIdentity := by
      rw [cleanData, List.length_map, ← List.countP_eq_length_filter]
    have hsplit : df.countP hasIdentity +
        df.countP (fun r => !hasIdentity r) = df.length :=
      countP_self_add_countP_not hasIdentity df
    omega
  · intro s hs
    rw [cleanData, List.mem_map] at hs
    obtain ⟨r, hr, hrs⟩ := hs
    rw [List.mem_filter] at hr
    exact ⟨r, hr.1, hr.2, hrs.symm⟩
  · intro r hr hid
    refine ⟨?_, rfl⟩
    rw [cleanData, List.mem_map]
    exact ⟨r, List.mem_filter.mpr ⟨hr, hid⟩, rfl⟩

/-- Two rows, one with a missing region identifier. -/
def exC7 : List InputRow :=
  [⟨none, some "Ohio", some "Adams", []⟩,
   ⟨some "1", some "Ohio", some "Adams County", [("Society_HEALTH", none)]⟩]

theorem cleanData_rejects_rows_missing_identity_witness :
    exC7.length - (cleanData exC7).length = 1 := by
  rw [(cleanData_rejects_rows_missing_identity exC7).1]
  decide

theorem fipsNormalize_strips_all_then_pads_witness :
    hasDotZero "1001".data = false ∧
    fipsNormalize (String.mk ("1001".data ++ ['.', '0'])) =
      String.mk (zfill 5 "1001".data) ∧
    String.mk (zfill 5 "1001".data) = "01001" :=
  ⟨by decide, (fipsNormalize_strips_all_then_pads "1001".data (by decide)).1,
    by decide⟩


/-! ### `SimpleETL.load_data` (`county_health_etl.py` lines 278-347)

The county directory is written with `if_exists='replace'`; the
long-format raw facts and the computed percentile records are written
with `if_exists='append'`.  Computed records exist only for metrics with
at least one non-null cell (`if len(metric_data) > 0`). -/

/-- One long-format `raw_metrics` row of the simple store. -/
structure RawMetricRecord where
  county_fips : String
  county_name : String
  state_code : String
  metric_name : String
  metric_value : ℚ
  data_year : ℤ
  data_source : String
deriving DecidableEq

/-- One `computed_metrics` row. -/
structure ComputedMetricRecord where
  county_fips : String
  county_name : String
  state_code : String
  top_level : String
  sub_category : String
  metric_name : String
  metric_value : ℚ
  percentile_rank : ℚ
  data_year : ℤ
deriving DecidableEq

/-- One `counties` row. -/
structure CountyRecord where
  fips_code : String
  county_name : String
  state_code : String
  state_name : String
deriving DecidableEq

/-- The three tables `load_data` writes. -/
structure SimpleDB where
  counties : List CountyRecord
  raw_metrics : List RawMetricRecord
  computed_metrics : List ComputedMetricRecord
deriving DecidableEq

/-- The value of one metric cell of a sanitized row. -/
def cellValue (r : CleanRow) (m : String) : Option ℚ :=
  match r.cells.find? (fun p => p.1 == m) with
  | some p => p.2
  | none => none

/-- `df[[...identity..., metric_col]].dropna()`: the rows holding a
value for metric `m`, with that value. -/
def metricData (df : List CleanRow) (m : String) : List (CleanRow × ℚ) :=
  df.filterMap (fun r => (cellValue r m).map (fun v => (r, v)))

/-- The hierarchy info attached to a computed record: the parsed
definition when the column has at least two segments, otherwise the
fallback parsing of lines 323-327. -/
def colInfo (m : String) : String × String × String :=
  match buildFromColumn m with
  | some d => (d.top_level, d.sub_category, d.metric_name)
  | none =>
    match splitSegs m.data with
    | p0 :: _ => (String.mk p0, "OTHER", m)
    | [] => ("OTHER", "OTHER", m)

/-- The computed-percentile records of one metric column: none when no
row holds a value, otherwise one per value-holding row, carrying that
row's percentile among the metric's non-null values. -/
def computedFor (m : String) (df : List CleanRow) (year : ℤ) :
    List ComputedMetricRecord :=
  let d := metricData df m
  if d.isEmpty then []
  else
    let vals := d.map Prod.snd
    let info := colInfo m
    d.map (fun rv =>
      ⟨rv.1.county_fips, rv.1.county_name, rv.1.state_code,
       info.1, info.2.1, info.2.2, rv.2, pctRank vals rv.2, year⟩)

/-- All computed records of one run, column by column. -/
def computedRecords (cols : List String) (df : List CleanRow) (year : ℤ) :
    List ComputedMetricRecord :=
  cols.flatMap (fun m => computedFor m df year)

/-- The county rows before `drop_duplicates`. -/
def countyRecordsRaw (df : List CleanRow) : List CountyRecord :=
  df.map (fun r => ⟨r.county_fips, r.county_name, r.state_code, r.state_name⟩)

/-- `drop_duplicates`, keeping the first occurrence. -/
def dropDupAux (seen : List CountyRecord) :
    List CountyRecord → List CountyRecord
  | [] => []
  | r :: rest =>
    if r ∈ seen then dropDupAux seen rest
    else r :: dropDupAux (r :: seen) rest

/-- `drop_duplicates` over the county rows. -/
def dropDuplicates (l : List CountyRecord) : List CountyRecord :=
  dropDupAux [] l

/-- The melted long-format rows: per metric column, the value-holding
rows (`melt` followed by `dropna(subset=['metric_value'])`). -/
def longRows (cols : List String) (df : List CleanRow) (year : ℤ)
    (src : String) : List RawMetricRecord :=
  cols.flatMap (fun m =>
    df.filterMap (fun r => (cellValue r m).map (fun v =>
      ⟨r.county_fips, r.county_name, r.state_code, m, v, year, src⟩)))

/-- The store before any run. -/
def emptySimpleDB : SimpleDB :=
  ⟨[], [], []⟩

/-- One `load_data` run: counties replaced, raw and computed facts
appended. -/
def loadData (cols : List String) (df : List CleanRow) (year : ℤ)
    (src : String) (db : SimpleDB) : SimpleDB :=
  ⟨dropDuplicates (countyRecordsRaw df),
   db.raw_metrics ++ longRows cols df year src,
   db.computed_metrics ++ computedRecords cols df year⟩

/-- The metric columns and sanitized frame of the C6 example: one
county, one metric, one value. -/
def c6cols : List String :=
  ["Society_HEALTH"]

/-- One sanitized row holding a single metric value. -/
def exC6df : List CleanRow :=
  [⟨"00001", "Ohio", "Adams", "OH", [("Society_HEALTH", some 5)]⟩]

/-- **C6, counterexample.** Running `load_data` twice on the identical
one-row input for the same year leaves two copies of the single raw
fact instead of one: the raw-facts table of the second run differs from
the first run's and the fact is duplicated, not superseded. -/
theorem loadData_second_run_duplicates_facts :
    (loadData c6cols exC6df 2023 "src"
        (loadData c6cols exC6df 2023 "src" emptySimpleDB)).raw_metrics ≠
      (loadData c6cols exC6df 2023 "src" emptySimpleDB).raw_metrics ∧
    (loadData c6cols exC6df 2023 "src"
        (loadData c6cols exC6df 2023 "src" emptySimpleDB)).raw_metrics.length
      = 2 ∧
    (loadData c6cols exC6df 2023 "src" emptySimpleDB).raw_metrics.length
      = 1 :=
  ⟨by decide, by decide, by decide⟩

/-- **C6, amended.** A run replaces the county directory wholesale but
appends its raw and computed facts to whatever is already stored: after
two identical runs for the same year the county table is unchanged
while every raw and computed fact row is present exactly twice. -/
theorem loadData_replaces_counties_appends_facts (cols : List String)
    (df : List CleanRow) (year : ℤ) (src : String) (db : SimpleDB) :
    (loadData cols df year src db).counties =
      dropDuplicates (countyRecordsRaw df) ∧
    (loadData cols df year src db).raw_metrics =
      db.raw_metrics ++ longRows cols df year src ∧
    (loadData cols df year src db).computed_metrics =
      db.computed_metrics ++ computedRecords cols df year ∧
    (∀ rec : RawMetricRecord,
      (loadData cols df year src
          (loadData cols df year src emptySimpleDB)).raw_metrics.count rec =
        2 * (loadData cols df year src emptySimpleDB).raw_metrics.count
          rec) ∧
    (∀ rec : ComputedMetricRecord,
      (loadData cols df year src
          (loadData cols df year src emptySimpleDB)).computed_metrics.count
          rec =
        2 * (loadData cols df year src emptySimpleDB).computed_metrics.count
          rec) ∧
    (loadData cols df year src
        (loadData cols df year src emptySimpleDB)).counties =
      (loadData cols df year src emptySimpleDB).counties := by
  refine ⟨rfl, rfl, rfl, ?_, ?_, rfl⟩
  · intro rec
    show ((([] : List RawMetricRecord) ++ longRows cols df year src) ++
        longRows cols df year src).count rec =
      2 * (([] : List RawMetricRecord) ++ longRows cols df year src).count rec
    rw [List.nil_append, List.count_append]
    omega
  · intro rec
    show ((([] : List ComputedMetricRecord) ++ computedRecords cols df year) ++
        computedRecords cols df year).count rec =
      2 * (([] : List ComputedMetricRecord) ++
        computedRecords cols df year).count rec
    rw [List.nil_append, List.count_append]
    omega

/-- **C9.** A metric whose cells are all null across the batch produces
no computed-percentile rows (first conjunct), and a catalog metric with
no stored rows contributes nothing to any roll-up score: adding its
metadata to the improved store leaves every subcategory score unchanged
(second conjunct). -/
theorem empty_metric_produces_no_rows (m : String) (df : List CleanRow)
    (year : ℤ) (h : ∀ r ∈ df, cellValue r m = none) :
    computedFor m df year = [] ∧
    (∀ (db : ImprovedDB) (mm : MetricMeta) (f : ℤ) (cat sub : String),
      (∀ r ∈ db.raw_metrics, ¬ r.metric_id = mm.metric_id) →
      subcatScore ⟨mm :: db.metric_metadata, db.raw_metrics⟩ f cat sub =
        subcatScore db f cat sub) := by
  constructor
  · have hd : metricData df m = [] := by
      rw [metricData]
      rw [List.filterMap_eq_nil_iff]
      intro r hr
      rw [h r hr]
      rfl
    rw [computedFor]
    simp [hd]
  · intro db mm f cat sub hne
    have hrows : subcatRows ⟨mm :: db.metric_metadata, db.raw_metrics⟩
        f cat sub = subcatRows db f cat sub := by
      rw [subcatRows, subcatRows]
      apply List.filter_congr
      intro r hr
      have hfind : metaFor ⟨mm :: db.metric_metadata, db.raw_metrics⟩
          r.metric_id = metaFor db r.metric_id := by
        rw [metaFor, metaFor]
        apply List.find?_cons_of_neg
        simp only [beq_iff_eq]
        intro hc
        exact hne r hr hc.symm
      rw [metaMatch, metaMatch, hfind]
    rw [subcatScore, subcatScore, hrows]

/-- One sanitized row whose only metric cell is null. -/
def exC9df : List CleanRow :=
  [⟨"00001", "Ohio", "Adams", "OH", [("Society_X", none)]⟩]

theorem empty_metric_produces_no_rows_witness :
    computedFor "Society_X" exC9df 2023 = [] :=
  (empty_metric_produces_no_rows "Society_X" exC9df 2023 (by decide)).1

end CommunityHealth
